import Mathlib

/-!
A shallow embedding of the CRUSH placement library (`src/src/lib.rs`).

Modelling conventions:
* Rust `u64` weights become `Nat` values; the wrapping cast chain
  `(self.weight as i64 + weight) as u64` becomes `wrap ((w : Int) + delta)`,
  i.e. reduction modulo `2^64` into `[0, 2^64)`.
* A `/`-separated path string is represented by its list of components
  (`List String`); the Rust code splits the string at the first `/` and
  recurses, which is exactly structural recursion on the component list.
* `BTreeMap<String, Node>` becomes a key-sorted association list
  `List (String × Node)`; iteration order of the Rust map is ascending key
  order, which the sorted list reproduces.
* Rust panics (missing-key indexing, `unwrap`, division by zero) become
  `none` / dedicated error constructors, so every operation is total.
* The `ahash` 64-bit hasher is an external crate (the spec treats the hash
  as an external capability), so every hash-dependent operation is
  parametric in a function `hash : String → Nat → Nat → Nat` standing for
  hashing the tuple `(name, key, index)`.  Likewise the floating-point
  `LN_TABLE` is passed as an abstract table `L : Nat → Nat`.
-/

/-- `2^64`, the modulus of Rust `u64` arithmetic. -/
def U64 : Nat := 18446744073709551616

/-- Wrapping of an integer into `[0, 2^64)`: the semantics of the Rust cast
chain `(w as i64 + delta) as u64` in release mode. -/
def wrap (z : Int) : Nat := (z % (U64 : Int)).toNat

/-- A node in the cluster map (`struct Node`): a weight, an IN/OUT flag and
a key-sorted list of named children standing for the `BTreeMap`. -/
inductive Node : Type where
  | mk : Nat → Bool → List (String × Node) → Node

/-- The `weight` field. -/
def Node.weight : Node → Nat
  | .mk w _ _ => w

/-- The `out` field. -/
def Node.out : Node → Bool
  | .mk _ o _ => o

/-- The `children` field. -/
def Node.children : Node → List (String × Node)
  | .mk _ _ cs => cs

/-- `Node::default()`: weight 0, in service, no children. -/
def Node.default : Node := .mk 0 false []

/-- Strict lexicographic order on character lists, by code point.  Rust's
`Ord for String` compares UTF-8 bytes, and UTF-8 byte order coincides with
code-point order, so this models the `BTreeMap` key order. -/
def charListLt : List Char → List Char → Bool
  | _, [] => false
  | [], _ :: _ => true
  | a :: as, b :: bs =>
    if a.toNat < b.toNat then true
    else if b.toNat < a.toNat then false
    else charListLt as bs

/-- The `BTreeMap` key order on strings. -/
def strLt (a b : String) : Bool := charListLt a.data b.data

/-- `BTreeMap` lookup (`self.children.get(name)`); first matching key. -/
def findChild : List (String × Node) → String → Option Node
  | [], _ => none
  | (k, v) :: cs, name => if k = name then some v else findChild cs name

/-- `BTreeMap` insert: replace the entry at an existing key, otherwise
insert at the sorted position (keeping ascending key order). -/
def insertChild : List (String × Node) → String → Node → List (String × Node)
  | [], name, v => [(name, v)]
  | (k, w) :: cs, name, v =>
    if strLt name k then (name, v) :: (k, w) :: cs
    else if name = k then (name, v) :: cs
    else (k, w) :: insertChild cs name v

/-- `Node::add_weight`: wrap-add `delta` to this node's weight, then recurse
into the child named by the head component (`entry(name).or_default()`
creates a missing child with `Node::default()`). -/
def Node.add_weight : Node → List String → Int → Node
  | .mk w o cs, [], delta => .mk (wrap ((w : Int) + delta)) o cs
  | .mk w o cs, name :: rest, delta =>
    let child := (findChild cs name).getD Node.default
    .mk (wrap ((w : Int) + delta)) o (insertChild cs name (child.add_weight rest delta))

/-- `Node::get`: navigate by path components; the Rust code indexes
`self.children[name]`, which panics on a missing key — modelled by `none`. -/
def Node.get : Node → List String → Option Node
  | n, [] => some n
  | n, name :: rest =>
    match findChild n.children name with
    | none => none
    | some c => c.get rest

/-- `Node::get_mut` followed by `.out = out` (the body of
`Crush::set_inout`): rebuild the tree along the path; a missing component
makes the `unwrap` panic, modelled by `none`. -/
def Node.set_out : Node → List String → Bool → Option Node
  | .mk w _ cs, [], b => some (.mk w b cs)
  | .mk w o cs, name :: rest, b =>
    match findChild cs name with
    | none => none
    | some c =>
      match c.set_out rest b with
      | none => none
      | some c' => some (.mk w o (insertChild cs name c'))

/-- The CRUSH cluster map (`struct Crush`). -/
structure Crush : Type where
  root : Node

/-- `Crush::default()`. -/
def Crush.default : Crush := ⟨Node.default⟩

/-- `Crush::add_weight`. -/
def Crush.add_weight (c : Crush) (path : List String) (delta : Int) : Crush :=
  ⟨c.root.add_weight path delta⟩

/-- `Crush::total_weight`. -/
def Crush.total_weight (c : Crush) : Nat := c.root.weight

/-- `Crush::get_weight` (panic on a missing node becomes `none`). -/
def Crush.get_weight (c : Crush) (path : List String) : Option Nat :=
  (c.root.get path).map Node.weight

/-- `Crush::get_inout` (panic on a missing node becomes `none`). -/
def Crush.get_inout (c : Crush) (path : List String) : Option Bool :=
  (c.root.get path).map Node.out

/-- `Crush::set_inout` (panic on a missing node becomes `none`). -/
def Crush.set_inout (c : Crush) (path : List String) (b : Bool) : Option Crush :=
  (c.root.set_out path b).map Crush.mk

/-! ## The weighted draw (`Node::choose`) -/

/-- One straw2 draw per child, in `BTreeMap` iteration order: pair each
child name with `LN_TABLE[hash(name, key, index) & 65535] / weight`.
Rust `u64` division by zero panics, so a zero-weight child yields `none`
for the whole list (Rust's `min_by_key` forces the closure on every
child, hence any zero-weight child anywhere in the map panics). -/
def drawList (L : Nat → Nat) (hash : String → Nat → Nat → Nat)
    (key index : Nat) : List (String × Node) → Option (List (String × Nat))
  | [] => some []
  | (name, c) :: cs =>
    if c.weight = 0 then none
    else
      match drawList L hash key index cs with
      | none => none
      | some ds => some ((name, L (hash name key index % 65536) / c.weight) :: ds)

/-- Rust `Iterator::min_by_key`: the first entry attaining the minimal
draw value (on ties the earlier element wins). -/
def minDraw : List (String × Nat) → Option (String × Nat)
  | [] => none
  | x :: xs =>
    match minDraw xs with
    | none => some x
    | some m => if x.2 ≤ m.2 then some x else some m

/-- `Node::choose`: the winning child name.  `none` models the two panics
(`unwrap` on an empty map, division by a zero weight). -/
def Node.choose (L : Nat → Nat) (hash : String → Nat → Nat → Nat)
    (n : Node) (key index : Nat) : Option String :=
  match drawList L hash key index n.children with
  | none => none
  | some ds => (minDraw ds).map Prod.fst

/-! ## The placement selector (`Crush::select` / `Crush::locate`)

The Rust loop has no termination bound, so the embedding is fuel-indexed:
`fuelOut` means the given step budget ran out (the Rust code would still
be looping), `panicked` models the panics inside `choose` / indexing. -/

/-- Result of the inner `loop` of `Crush::select` for one replica. -/
inductive LoopResult : Type where
  | found : String → Nat → LoopResult
  | panicked : LoopResult
  | fuelOut : LoopResult
  deriving DecidableEq

/-- Result of `Crush::select`. -/
inductive SelectResult : Type where
  | ok : List String → SelectResult
  | panicked : SelectResult
  | fuelOut : SelectResult
  deriving DecidableEq

/-- Result of `Crush::locate`. -/
inductive LocateResult : Type where
  | ok : String → LocateResult
  | panicked : LocateResult
  | fuelOut : LocateResult
  deriving DecidableEq

/-- The inner `loop` of `Crush::select`, one iteration per unit of fuel.
State: current `node`, `local_failure`, accumulated `fullname`,
shared `failure_count`; `targets` and the replica index `r` are fixed for
the whole loop.  Mirrors the Rust body line by line. -/
def selLoop (L : Nat → Nat) (hash : String → Nat → Nat → Nat) (root : Node)
    (pgid r : Nat) (targets : List String) :
    Nat → Node → Nat → String → Nat → LoopResult
  | 0, _, _, _, _ => .fuelOut
  | fuel + 1, node, localFailure, fullname, failureCount =>
    match node.choose L hash pgid (r + failureCount) with
    | none => .panicked
    | some name =>
      let fullname' := if fullname.isEmpty then name else fullname ++ "/" ++ name
      match findChild node.children name with
      | none => .panicked
      | some child =>
        if child.children.isEmpty = false then
          selLoop L hash root pgid r targets fuel child localFailure fullname' failureCount
        else if child.out = false ∧ targets.contains fullname' = false then
          .found fullname' failureCount
        else
          let failureCount' := failureCount + 1
          let localFailure' := localFailure + 1
          if localFailure' > 3 then
            selLoop L hash root pgid r targets fuel root 0 "" failureCount'
          else
            selLoop L hash root pgid r targets fuel node localFailure' fullname' failureCount'

/-- The outer `for r in 0..num` loop of `Crush::select`: `rem` replicas
remain, `r` is the next replica index, each inner loop gets `fuel` steps. -/
def selectGo (L : Nat → Nat) (hash : String → Nat → Nat → Nat) (root : Node)
    (pgid fuel : Nat) : Nat → Nat → List String → Nat → SelectResult
  | 0, _, targets, _ => .ok targets
  | rem + 1, r, targets, failureCount =>
    match selLoop L hash root pgid r targets fuel root 0 "" failureCount with
    | .panicked => .panicked
    | .fuelOut => .fuelOut
    | .found fullname failureCount' =>
      selectGo L hash root pgid fuel rem (r + 1) (targets ++ [fullname]) failureCount'

/-- `Crush::select(pgid, num)` with a step budget of `fuel` per replica. -/
def Crush.select (L : Nat → Nat) (hash : String → Nat → Nat → Nat)
    (c : Crush) (pgid num fuel : Nat) : SelectResult :=
  selectGo L hash c.root pgid fuel num 0 [] 0

/-- `Crush::locate(pgid) = select(pgid, 1).into_iter().next().unwrap()`
(an empty result would make the `unwrap` panic). -/
def Crush.locate (L : Nat → Nat) (hash : String → Nat → Nat → Nat)
    (c : Crush) (pgid fuel : Nat) : LocateResult :=
  match Crush.select L hash c pgid 1 fuel with
  | .ok [] => .panicked
  | .ok (t :: _) => .ok t
  | .panicked => .panicked
  | .fuelOut => .fuelOut

/-! ## Derived tree predicates (used to state the claims) -/

mutual

/-- Number of eligible leaves: childless nodes with `out = false`.
The selector checks `out` only on the final leaf, so the count ignores
the flag on internal nodes. -/
def Node.eligibleLeafCount : Node → Nat
  | .mk _ o [] => if o then 0 else 1
  | .mk _ _ (c :: cs) => c.2.eligibleLeafCount + eligibleLeafCountChildren cs

/-- Sum of `eligibleLeafCount` over a child list. -/
def eligibleLeafCountChildren : List (String × Node) → Nat
  | [] => 0
  | c :: cs => c.2.eligibleLeafCount + eligibleLeafCountChildren cs

end

/-- Sum of the children's weights (in `BTreeMap` order). -/
def childWeightSum : List (String × Node) → Nat
  | [] => 0
  | c :: cs => c.2.weight + childWeightSum cs

mutual

/-- The literal weight invariant of the spec: every internal node's weight
equals the plain sum of its children's weights, recursively. -/
def Node.weightsSumExact : Node → Bool
  | .mk _ _ [] => true
  | .mk w _ (c :: cs) =>
    (w == childWeightSum (c :: cs)) && weightsSumExactChildren (c :: cs)

/-- `weightsSumExact` for every node of a child list. -/
def weightsSumExactChildren : List (String × Node) → Bool
  | [] => true
  | c :: cs => c.2.weightsSumExact && weightsSumExactChildren cs

end

mutual

/-- The weight invariant up to `u64` wrapping: every internal node's weight
is congruent modulo `2^64` to the sum of its children's weights. -/
def Node.weightsSumMod : Node → Bool
  | .mk _ _ [] => true
  | .mk w _ (c :: cs) =>
    (w % U64 == childWeightSum (c :: cs) % U64) && weightsSumModChildren (c :: cs)

/-- `weightsSumMod` for every node of a child list. -/
def weightsSumModChildren : List (String × Node) → Bool
  | [] => true
  | c :: cs => c.2.weightsSumMod && weightsSumModChildren cs

end

/-- A well-formed child name: nonempty and without `/`.  Every name the
public API can ever install satisfies this when the caller's path strings
use nonempty `/`-separated components, and it makes the component list of
a path string unambiguous. -/
def goodName (s : String) : Bool :=
  s ≠ "" && s.data.contains '/' = false

mutual

/-- All child names in the tree are `goodName`s. -/
def Node.wfNames : Node → Bool
  | .mk _ _ cs => wfNamesChildren cs

/-- `wfNames` for a child list (keys and subtrees). -/
def wfNamesChildren : List (String × Node) → Bool
  | [] => true
  | (k, c) :: cs => goodName k && c.wfNames && wfNamesChildren cs

end

/-- Render a component list as the `/`-separated path string that
`Crush::select` accumulates (`""` for the empty list). -/
def pathString : List String → String
  | [] => ""
  | [x] => x
  | x :: xs => x ++ "/" ++ pathString xs

/-- Fold a list of `add_weight` calls over the empty cluster map. -/
def applyCalls (calls : List (List String × Int)) : Crush :=
  calls.foldl (fun c pd => c.add_weight pd.1 pd.2) Crush.default

/-- There is a node at `q` with at least one child. -/
def internalAt (n : Node) (q : List String) : Prop :=
  ∃ v, n.get q = some v ∧ v.children ≠ []

/-- No call's path is a proper initial segment of another call's path
(repeating a path is allowed). -/
def PrefixFreeCalls (calls : List (List String × Int)) : Prop :=
  ∀ c1 ∈ calls, ∀ c2 ∈ calls, c1.1 <+: c2.1 → c1.1 = c2.1

/-- The keys of a child list are strictly ascending — the `BTreeMap`
representation invariant of the sorted association list. -/
def keysChain (cs : List (String × Node)) : Prop :=
  List.Chain' (fun a b => strLt a b = true) (cs.map Prod.fst)

mutual

/-- Every child list in the tree is strictly key-sorted. -/
def Node.allSorted : Node → Prop
  | .mk _ _ cs => keysChain cs ∧ childrenAllSorted cs

/-- `allSorted` for every node of a child list. -/
def childrenAllSorted : List (String × Node) → Prop
  | [] => True
  | (_, c) :: cs => c.allSorted ∧ childrenAllSorted cs

end

/-! ## A second selector, written from the spec's words (§4.3)

Used for the refinement claim about the retry/escalation policy: a
descent is a sequence of explicit steps; each step performs one weighted
draw at the current node with `attempt_index = r + failure_count`,
appends the chosen name to the accumulated path, and either descends,
accepts, retries the same level with both counters incremented, or (once
the local-failure counter exceeds 3) resets the local counter, discards
the accumulated path and restarts from the root. -/

/-- Outcome of one step of the spec's descent. -/
inductive SpecStep : Type where
  | panic : SpecStep
  | accept : String → Nat → SpecStep
  | continue_ : Node → Nat → String → Nat → SpecStep

/-- One step of the spec's descent (§4.3): state is the current node, the
local-failure counter, the accumulated path and the shared failure
counter. -/
def specStep (L : Nat → Nat) (hash : String → Nat → Nat → Nat) (root : Node)
    (pgid r : Nat) (targets : List String)
    (node : Node) (localFailure : Nat) (path : String) (failureCount : Nat) :
    SpecStep :=
  match node.choose L hash pgid (r + failureCount) with
  | none => .panic
  | some name =>
    let path' := if path = "" then name else path ++ "/" ++ name
    match findChild node.children name with
    | none => .panic
    | some child =>
      match child.children with
      | _ :: _ => .continue_ child localFailure path' failureCount
      | [] =>
        if child.out = true ∨ path' ∈ targets then
          let failureCount' := failureCount + 1
          let localFailure' := localFailure + 1
          if localFailure' > 3 then .continue_ root 0 "" failureCount'
          else .continue_ node localFailure' path' failureCount'
        else
          .accept path' failureCount

/-- The spec's descent for one replica: iterate `specStep` until it
accepts or panics, with a step budget. -/
def specDescend (L : Nat → Nat) (hash : String → Nat → Nat → Nat) (root : Node)
    (pgid r : Nat) (targets : List String) :
    Nat → Node → Nat → String → Nat → LoopResult
  | 0, _, _, _, _ => .fuelOut
  | fuel + 1, node, localFailure, path, failureCount =>
    match specStep L hash root pgid r targets node localFailure path failureCount with
    | .panic => .panicked
    | .accept p fc => .found p fc
    | .continue_ n lf p fc => specDescend L hash root pgid r targets fuel n lf p fc

/-- The spec's replica loop: one descent per replica index `r`, the shared
failure counter carried across replicas, each accepted path appended to
the result. -/
def specReplicas (L : Nat → Nat) (hash : String → Nat → Nat → Nat) (root : Node)
    (pgid fuel : Nat) : Nat → Nat → List String → Nat → SelectResult
  | 0, _, targets, _ => .ok targets
  | rem + 1, r, targets, failureCount =>
    match specDescend L hash root pgid r targets fuel root 0 "" failureCount with
    | .panicked => .panicked
    | .fuelOut => .fuelOut
    | .found p failureCount' =>
      specReplicas L hash root pgid fuel rem (r + 1) (targets ++ [p]) failureCount'

/-- The selector as described by the spec's §4.3 policy. -/
def specSelect (L : Nat → Nat) (hash : String → Nat → Nat → Nat)
    (c : Crush) (pgid num fuel : Nat) : SelectResult :=
  specReplicas L hash c.root pgid fuel num 0 [] 0

/-! ## Concrete instances used as witness inputs -/

/-- A constant stand-in for the logarithm table, used in witnesses. -/
def tableConst : Nat → Nat := fun _ => 100

/-- A concrete stand-in for the abstract hash, used in witnesses. -/
def hashLen : String → Nat → Nat → Nat := fun n _ _ => n.length

/-- A two-leaf cluster map: leaves `a` and `b`, weight 1 each. -/
def crushAB : Crush := (Crush.default.add_weight ["a"] 1).add_weight ["b"] 1

/-- A cluster map whose only leaf `a` (weight 1) is marked out. -/
def crushOneOut : Crush :=
  ((Crush.default.add_weight ["a"] 1).set_inout ["a"] true).getD Crush.default

/-- A cluster map with a single zero-weight child `a` under the root. -/
def crushZeroW : Crush := Crush.default.add_weight ["a"] 0

/-- `crushAB` with leaf `b` marked out. -/
def crushABout : Crush := (crushAB.set_inout ["b"] true).getD crushAB

/-! # Helper lemmas -/

theorem weight_mk (w : Nat) (o : Bool) (cs : List (String × Node)) :
    (Node.mk w o cs).weight = w := rfl

theorem out_mk (w : Nat) (o : Bool) (cs : List (String × Node)) :
    (Node.mk w o cs).out = o := rfl

theorem children_mk (w : Nat) (o : Bool) (cs : List (String × Node)) :
    (Node.mk w o cs).children = cs := rfl

theorem findChild_insertChild_self (cs : List (String × Node)) (k : String) (v : Node) :
    findChild (insertChild cs k v) k = some v := by
  induction cs with
  | nil => simp [insertChild, findChild]
  | cons c cs ih =>
    obtain ⟨k', v'⟩ := c
    by_cases h1 : strLt k k' = true
    · simp [insertChild, h1, findChild]
    · by_cases h2 : k = k'
      · subst h2; simp [insertChild, h1, findChild]
      · simp [insertChild, h1, h2, findChild, Ne.symm h2, ih]

theorem findChild_insertChild_ne (cs : List (String × Node)) (k k' : String) (v : Node)
    (h : k' ≠ k) : findChild (insertChild cs k v) k' = findChild cs k' := by
  induction cs with
  | nil => simp [insertChild, findChild, Ne.symm h]
  | cons c cs ih =>
    obtain ⟨k'', v''⟩ := c
    by_cases h1 : strLt k k'' = true
    · simp [insertChild, h1, findChild, Ne.symm h]
    · by_cases h2 : k = k''
      · subst h2; simp [insertChild, h1, findChild, Ne.symm h, h]
      · simp [insertChild, h1, h2, findChild, ih]

theorem add_weight_mk_nil (w : Nat) (o : Bool) (cs : List (String × Node)) (delta : Int) :
    (Node.mk w o cs).add_weight [] delta = .mk (wrap ((w : Int) + delta)) o cs := rfl

theorem add_weight_mk_cons (w : Nat) (o : Bool) (cs : List (String × Node))
    (a : String) (p : List String) (delta : Int) :
    (Node.mk w o cs).add_weight (a :: p) delta
      = .mk (wrap ((w : Int) + delta)) o
          (insertChild cs a (((findChild cs a).getD Node.default).add_weight p delta)) := rfl

theorem add_weight_weight (n : Node) (p : List String) (delta : Int) :
    (n.add_weight p delta).weight = wrap ((n.weight : Int) + delta) := by
  cases n with
  | mk w o cs => cases p <;> rfl

theorem get_nil (n : Node) : n.get [] = some n := rfl

theorem get_cons (n : Node) (a : String) (p : List String) :
    n.get (a :: p) = (findChild n.children a).bind (fun c => c.get p) := by
  cases hf : findChild n.children a <;> simp [Node.get, hf]

theorem get_default_weight (q : List String) :
    ((Node.default.get q).map Node.weight).getD 0 = 0 := by
  cases q <;> rfl

/-- Weight of every node along the updated path after `add_weight`:
wrap-add `delta` to the previous weight (0 for a freshly created node). -/
theorem get_weight_add_weight_of_pre (q : List String) :
    ∀ (n : Node) (p : List String) (delta : Int), q <+: p →
      ((n.add_weight p delta).get q).map Node.weight
        = some (wrap (((((n.get q).map Node.weight).getD 0 : Nat) : Int) + delta)) := by
  induction q with
  | nil =>
    intro n p delta _
    simp [get_nil, add_weight_weight]
  | cons a q ih =>
    intro n p delta hpre
    obtain ⟨t, ht⟩ := hpre
    cases p with
    | nil => simp at ht
    | cons b p =>
      rw [List.cons_append] at ht
      injection ht with hab hqt
      subst hab
      have hpre' : q <+: p := ⟨t, hqt⟩
      cases n with
      | mk w o cs =>
        rw [add_weight_mk_cons, get_cons]
        simp only [children_mk, findChild_insertChild_self, Option.some_bind]
        rw [ih _ p delta hpre']
        cases hf : findChild cs a with
        | none => simp [get_cons, children_mk, hf, get_default_weight]
        | some c => simp [get_cons, children_mk, hf]

theorem set_out_none_of_get_none :
    ∀ (p : List String) (n : Node) (b : Bool), n.get p = none → n.set_out p b = none := by
  intro p
  induction p with
  | nil => intro n b h; simp [get_nil] at h
  | cons a p ih =>
    intro n b h
    cases n with
    | mk w o cs =>
      rw [get_cons] at h
      simp only [children_mk] at h
      cases hf : findChild cs a with
      | none => simp [Node.set_out, hf]
      | some c =>
        rw [hf] at h
        simp [Node.set_out, hf, ih c b h]

theorem get_append (q r : List String) :
    ∀ (n : Node), n.get (q ++ r) = (n.get q).bind (fun v => v.get r) := by
  induction q with
  | nil => intro n; simp [get_nil]
  | cons a q ih =>
    intro n
    rw [List.cons_append, get_cons, get_cons]
    cases hf : findChild n.children a with
    | none => rfl
    | some c => simp [ih c]

/-! # Claim theorems -/

/-- C9: `add_weight` updates every node along the path by wrapping
two's-complement arithmetic: the new weight is `(old + delta) mod 2^64`
(with `old = 0` for a node the call creates), and `get_weight` /
`total_weight` subsequently report the wrapped value; a negative `delta`
larger in magnitude than the stored weight wraps instead of failing or
clamping. -/
theorem c9_add_weight_wraps (c : Crush) (p : List String) (delta : Int)
    (q : List String) (h : q <+: p) :
    (c.add_weight p delta).get_weight q
        = some (wrap ((((c.get_weight q).getD 0 : Nat) : Int) + delta))
      ∧ (c.add_weight p delta).total_weight = wrap ((c.total_weight : Int) + delta) := by
  constructor
  · exact get_weight_add_weight_of_pre q c.root p delta h
  · exact add_weight_weight c.root p delta

/-- Witness for C9: adding 5 then removing 7 at leaf `a` wraps the leaf's
reported weight to `2^64 - 2`. -/
theorem c9_add_weight_wraps_witness :
    ((Crush.default.add_weight ["a"] 5).add_weight ["a"] (-7)).get_weight ["a"]
      = some (U64 - 2) :=
  ((c9_add_weight_wraps (Crush.default.add_weight ["a"] 5) ["a"] (-7) ["a"]
    ⟨[], rfl⟩).1).trans (by decide)

/-- C5: a path lookup whose components stop resolving at some point — a
valid (possibly empty) resolved front `q` followed by a component `a`
that is not a child there — makes `get_weight`, `get_inout` and
`set_inout` all surface the failure (`none`, the model of the Rust
panic) instead of silently defaulting. -/
theorem c5_missing_node_surfaced (c : Crush) (p q : List String) (a : String)
    (rest : List String) (v : Node) (hp : p = q ++ a :: rest)
    (hq : c.root.get q = some v) (ha : findChild v.children a = none) :
    c.get_weight p = none ∧ c.get_inout p = none ∧ ∀ b, c.set_inout p b = none := by
  have hget : c.root.get p = none := by
    rw [hp, get_append, hq]
    simp [get_cons, ha]
  refine ⟨?_, ?_, ?_⟩
  · simp [Crush.get_weight, hget]
  · simp [Crush.get_inout, hget]
  · intro b
    simp [Crush.set_inout, set_out_none_of_get_none p c.root b hget]

/-- Witness for C5: in the two-leaf map, looking up the missing child `b`
below leaf `a` (a valid front followed by a missing component) fails. -/
theorem c5_missing_node_surfaced_witness :
    crushAB.get_weight ["a", "b"] = none ∧ crushAB.set_inout ["a", "b"] true = none := by
  have h := c5_missing_node_surfaced crushAB ["a", "b"] ["a"] "b" [] (.mk 1 false [])
    rfl rfl rfl
  exact ⟨h.1, h.2.2 true⟩

/-- The inner selection loop only ever reports a path that is not already
among the accepted targets. -/
theorem selLoop_found_not_mem (L : Nat → Nat) (hash : String → Nat → Nat → Nat)
    (root : Node) (pgid r : Nat) (targets : List String) :
    ∀ (fuel : Nat) (node : Node) (lf : Nat) (fn : String) (fc : Nat) (f : String) (fc' : Nat),
      selLoop L hash root pgid r targets fuel node lf fn fc = .found f fc' → f ∉ targets := by
  intro fuel
  induction fuel with
  | zero => intro node lf fn fc f fc' h; simp [selLoop] at h
  | succ fuel ih =>
    intro node lf fn fc f fc' h
    rw [selLoop] at h
    cases hc : node.choose L hash pgid (r + fc) with
    | none => rw [hc] at h; simp at h
    | some name =>
      rw [hc] at h
      simp only at h
      cases hf : findChild node.children name with
      | none => rw [hf] at h; simp at h
      | some child =>
        rw [hf] at h
        simp only at h
        by_cases hd : child.children.isEmpty = false
        · rw [if_pos hd] at h
          exact ih _ _ _ _ _ _ h
        · rw [if_neg hd] at h
          by_cases hacc : child.out = false
              ∧ targets.contains (if fn.isEmpty then name else fn ++ "/" ++ name) = false
          · rw [if_pos hacc] at h
            injection h with h1 h2
            subst h1
            intro hmem
            have h2 := hacc.2
            have h3 : targets.contains
                (if fn.isEmpty then name else fn ++ "/" ++ name) = true := by
              simpa using hmem
            rw [h3] at h2
            cases h2
          · rw [if_neg hacc] at h
            by_cases hloc : lf + 1 > 3
            · rw [if_pos hloc] at h
              exact ih _ _ _ _ _ _ h
            · rw [if_neg hloc] at h
              exact ih _ _ _ _ _ _ h

/-- The replica loop preserves distinctness of the accepted targets. -/
theorem selectGo_ok_nodup (L : Nat → Nat) (hash : String → Nat → Nat → Nat)
    (root : Node) (pgid fuel : Nat) :
    ∀ (rem r : Nat) (targets : List String) (fc : Nat) (ts : List String),
      targets.Nodup → selectGo L hash root pgid fuel rem r targets fc = .ok ts →
      ts.Nodup := by
  intro rem
  induction rem with
  | zero =>
    intro r targets fc ts hnd h
    rw [selectGo] at h
    cases h
    exact hnd
  | succ rem ih =>
    intro r targets fc ts hnd h
    rw [selectGo] at h
    cases hl : selLoop L hash root pgid r targets fuel root 0 "" fc with
    | panicked => rw [hl] at h; simp at h
    | fuelOut => rw [hl] at h; simp at h
    | found f fc' =>
      rw [hl] at h
      simp only at h
      have hnotmem := selLoop_found_not_mem L hash root pgid r targets fuel root 0 "" fc f fc' hl
      have hnd' : (targets ++ [f]).Nodup := by
        simp [List.nodup_append, hnd, hnotmem]
      exact ih _ _ _ _ hnd' h

/-- C1: for any `select(pgid, num)` call with `num` at most the number of
eligible in-service leaves, a returned sequence contains no repeated
path (each replica is accepted only if its path string is absent from
the targets accepted so far). -/
theorem c1_no_duplicate_replicas (L : Nat → Nat) (hash : String → Nat → Nat → Nat)
    (c : Crush) (pgid num fuel : Nat) (ts : List String)
    (hnum : num ≤ c.root.eligibleLeafCount)
    (hok : Crush.select L hash c pgid num fuel = .ok ts) : ts.Nodup :=
  selectGo_ok_nodup L hash c.root pgid fuel num 0 [] 0 ts List.nodup_nil hok

/-- Witness for C1: a concrete two-replica selection on the two-leaf map
returns two distinct paths. -/
theorem c1_no_duplicate_replicas_witness : (["a", "a/a"] : List String).Nodup :=
  c1_no_duplicate_replicas tableConst hashLen crushAB 0 2 10 ["a", "a/a"]
    (by decide) (by decide)

/-- C10: the weighted draw on a childless node has no candidate
(`min_by_key` on an empty iterator, `unwrap` panics — `none` in the
model); consequently `select` with `num ≥ 1` and `locate` on the
freshly-created empty cluster map run straight into this condition, so
the descent is only well-defined when every visited node has a child. -/
theorem c10_empty_children_no_candidate :
    (∀ (n : Node), n.children = [] → ∀ (L : Nat → Nat)
        (hash : String → Nat → Nat → Nat) (key index : Nat),
        n.choose L hash key index = none)
    ∧ (∀ (L : Nat → Nat) (hash : String → Nat → Nat → Nat) (pgid num fuel : Nat),
        1 ≤ num → 1 ≤ fuel →
        Crush.select L hash Crush.default pgid num fuel = .panicked)
    ∧ (∀ (L : Nat → Nat) (hash : String → Nat → Nat → Nat) (pgid fuel : Nat),
        1 ≤ fuel → Crush.locate L hash Crush.default pgid fuel = .panicked) := by
  refine ⟨?_, ?_, ?_⟩
  · intro n h L hash key index
    cases n with
    | mk w o cs =>
      rw [children_mk] at h
      subst h
      rfl
  · intro L hash pgid num fuel hnum hfuel
    cases num with
    | zero => exact absurd hnum (by omega)
    | succ num =>
      cases fuel with
      | zero => exact absurd hfuel (by omega)
      | succ fuel => rfl
  · intro L hash pgid fuel hfuel
    cases fuel with
    | zero => exact absurd hfuel (by omega)
    | succ fuel => rfl

/-- Witness for C10: concrete instantiation on the empty map. -/
theorem c10_empty_children_no_candidate_witness :
    Crush.select tableConst hashLen Crush.default 0 1 1 = .panicked :=
  c10_empty_children_no_candidate.2.1 tableConst hashLen 0 1 1 (by decide) (by decide)

/-- The draw at `crushOneOut`'s root always picks its single child `a`,
whatever the table and hash are. -/
theorem choose_oneOut (L : Nat → Nat) (hash : String → Nat → Nat → Nat)
    (key index : Nat) :
    Node.choose L hash (.mk 1 false [("a", .mk 1 true [])]) key index = some "a" := rfl

/-- On a map whose only leaf is out, the inner selection loop rejects
forever: every fuel budget is exhausted, for any replica state. -/
theorem selLoop_oneOut_fuelOut (L : Nat → Nat) (hash : String → Nat → Nat → Nat)
    (pgid r : Nat) (targets : List String) :
    ∀ (fuel : Nat) (lf : Nat) (fn : String) (fc : Nat),
      selLoop L hash (.mk 1 false [("a", .mk 1 true [])]) pgid r targets fuel
        (.mk 1 false [("a", .mk 1 true [])]) lf fn fc = .fuelOut := by
  intro fuel
  induction fuel with
  | zero => intro lf fn fc; rfl
  | succ fuel ih =>
    intro lf fn fc
    rw [selLoop, choose_oneOut]
    simp only [children_mk, findChild, if_pos rfl, out_mk]
    by_cases hloc : lf + 1 > 3
    · simp only [List.isEmpty_nil, if_neg, if_pos hloc]
      exact ih 0 "" (fc + 1)
    · simp only [List.isEmpty_nil, if_neg, if_pos, hloc]
      exact ih (lf + 1) _ (fc + 1)

/-- C7: the source's `select` has no attempt bound and no
placement-exhausted error: on a map whose only leaf is marked out, every
finite step budget runs out (`select` and `locate` never return a result
and never surface an error — the Rust loop simply never terminates). -/
theorem c7_unbounded_retry_no_exhaustion_error (L : Nat → Nat)
    (hash : String → Nat → Nat → Nat) (pgid num fuel : Nat) :
    Crush.select L hash crushOneOut pgid (num + 1) fuel = .fuelOut
    ∧ Crush.locate L hash crushOneOut pgid fuel = .fuelOut := by
  have hsel : ∀ (m : Nat),
      Crush.select L hash crushOneOut pgid (m + 1) fuel = .fuelOut := by
    intro m
    show selectGo L hash crushOneOut.root pgid fuel (m + 1) 0 [] 0 = .fuelOut
    rw [selectGo]
    rw [show crushOneOut.root = .mk 1 false [("a", .mk 1 true [])] from rfl]
    rw [selLoop_oneOut_fuelOut L hash pgid 0 [] fuel 0 "" 0]
  refine ⟨hsel num, ?_⟩
  rw [Crush.locate, hsel 0]

/-- C6: nothing filters zero-weight children out of the weighted draw —
the division `LN_TABLE[h] / weight` hits a zero divisor (a Rust panic,
`none`/`panicked` in the model) as soon as a node has a zero-weight
child, and `select` reaches it through the public API. -/
theorem c6_zero_weight_child_division_panics (L : Nat → Nat)
    (hash : String → Nat → Nat → Nat) (key index pgid num fuel : Nat) :
    Node.choose L hash crushZeroW.root key index = none
    ∧ Crush.select L hash crushZeroW pgid (num + 1) (fuel + 1) = .panicked := by
  constructor
  · rfl
  · rfl

/-- The two spellings of path accumulation agree (`is_empty` test versus
comparison with the empty string). -/
theorem append_name_eq (path name : String) :
    (if path = "" then name else path ++ "/" ++ name)
      = (if path.isEmpty then name else path ++ "/" ++ name) := by
  by_cases h : path = ""
  · rw [if_pos h, if_pos ((String.isEmpty_iff path).mpr h)]
  · rw [if_neg h, if_neg]
    intro hemp
    exact h ((String.isEmpty_iff path).mp hemp)

/-- One descent of the spec's step machine computes exactly the source's
inner selection loop. -/
theorem specDescend_eq_selLoop (L : Nat → Nat) (hash : String → Nat → Nat → Nat)
    (root : Node) (pgid r : Nat) (targets : List String) :
    ∀ (fuel : Nat) (node : Node) (lf : Nat) (path : String) (fc : Nat),
      specDescend L hash root pgid r targets fuel node lf path fc
        = selLoop L hash root pgid r targets fuel node lf path fc := by
  intro fuel
  induction fuel with
  | zero => intro node lf path fc; rfl
  | succ fuel ih =>
    intro node lf path fc
    rw [specDescend, selLoop, specStep]
    cases hc : node.choose L hash pgid (r + fc) with
    | none => rfl
    | some name =>
      simp only [← append_name_eq path name]
      cases hf : findChild node.children name with
      | none => rfl
      | some child =>
        simp only
        cases hcc : child.children with
        | cons x xs =>
          simp only [hcc, List.isEmpty_cons, if_pos rfl]
          exact ih _ _ _ _
        | nil =>
          simp only [hcc, List.isEmpty_nil, Bool.true_eq_false, if_false]
          by_cases hrej : child.out = true
              ∨ (if path = "" then name else path ++ "/" ++ name) ∈ targets
          · have hacc : ¬(child.out = false
                ∧ targets.contains (if path = "" then name else path ++ "/" ++ name)
                    = false) := by
              intro hacc
              rcases hrej with hout | hmem
              · rw [hout] at hacc
                cases hacc.1
              · have h2 := hacc.2
                rw [(by simpa using hmem :
                  targets.contains (if path = "" then name else path ++ "/" ++ name)
                    = true)] at h2
                cases h2
            rw [if_pos hrej, if_neg hacc]
            by_cases hloc : lf + 1 > 3
            · rw [if_pos hloc, if_pos hloc]
              exact ih _ _ _ _
            · rw [if_neg hloc, if_neg hloc]
              exact ih _ _ _ _
          · push_neg at hrej
            have hacc : child.out = false
                ∧ targets.contains (if path = "" then name else path ++ "/" ++ name)
                    = false := by
              refine ⟨by simpa using hrej.1, ?_⟩
              simpa using hrej.2
            rw [if_neg (by
              intro hr
              rcases hr with hout | hmem
              · rw [hacc.1] at hout; cases hout
              · have h2 := hacc.2
                rw [(by simpa using hmem :
                  targets.contains (if path = "" then name else path ++ "/" ++ name)
                    = true)] at h2
                cases h2), if_pos hacc]


/-- The spec's replica loop computes exactly the source's replica loop. -/
theorem specReplicas_eq_selectGo (L : Nat → Nat) (hash : String → Nat → Nat → Nat)
    (root : Node) (pgid fuel : Nat) :
    ∀ (rem r : Nat) (targets : List String) (fc : Nat),
      specReplicas L hash root pgid fuel rem r targets fc
        = selectGo L hash root pgid fuel rem r targets fc := by
  intro rem
  induction rem with
  | zero => intro r targets fc; rfl
  | succ rem ih =>
    intro r targets fc
    rw [specReplicas, selectGo, specDescend_eq_selLoop]
    cases selLoop L hash root pgid r targets fuel root 0 "" fc with
    | panicked => rfl
    | fuelOut => rfl
    | found f fc' => exact ih _ _ _

/-- C4: the source's `select` follows the spec's retry/escalation policy
exactly: every weighted draw uses `attempt_index = r + failure_count`
with a single failure counter shared across the replicas of one call; a
rejection increments the shared and the local counter and re-draws at the
same level; once the local counter exceeds 3 it is reset, the
accumulated path is discarded, and the descent restarts from the root.
The step machine `specSelect` transcribes that policy, and it computes
`Crush.select` on the nose. -/
theorem c4_retry_policy_refines (L : Nat → Nat) (hash : String → Nat → Nat → Nat)
    (c : Crush) (pgid num fuel : Nat) :
    specSelect L hash c pgid num fuel = Crush.select L hash c pgid num fuel :=
  specReplicas_eq_selectGo L hash c.root pgid fuel num 0 [] 0


/-! ## Lemmas for the weight invariant (C3) -/

theorem charListLt_irrefl (l : List Char) : charListLt l l = false := by
  induction l with
  | nil => rfl
  | cons a as ih => simp [charListLt, ih]

theorem strLt_irrefl (k : String) : strLt k k = false := by
  rw [strLt, charListLt_irrefl]

theorem strLt_ne (a b : String) (h : strLt a b = true) : a ≠ b := by
  intro he
  subst he
  rw [strLt_irrefl] at h
  cases h

theorem charListLt_trans :
    ∀ (a b c : List Char), charListLt a b = true → charListLt b c = true →
      charListLt a c = true := by
  intro a
  induction a with
  | nil =>
    intro b c hab hbc
    cases b with
    | nil => rw [charListLt_irrefl] at hab; cases hab
    | cons x xs =>
      cases c with
      | nil => simp [charListLt] at hbc
      | cons y ys => rfl
  | cons a as ih =>
    intro b c hab hbc
    cases b with
    | nil => simp [charListLt] at hab
    | cons x xs =>
      cases c with
      | nil => simp [charListLt] at hbc
      | cons y ys =>
        rw [charListLt] at hab hbc ⊢
        by_cases h1 : a.toNat < x.toNat
        · by_cases h2 : x.toNat < y.toNat
          · rw [if_pos (by omega)]
          · rw [if_neg h2] at hbc
            by_cases h3 : y.toNat < x.toNat
            · rw [if_pos h3] at hbc; cases hbc
            · rw [if_pos (by omega)]
        · rw [if_neg h1] at hab
          by_cases h1' : x.toNat < a.toNat
          · rw [if_pos h1'] at hab; cases hab
          · rw [if_neg h1'] at hab
            have hax : a.toNat = x.toNat := by omega
            by_cases h2 : x.toNat < y.toNat
            · rw [if_pos (by omega)]
            · rw [if_neg h2] at hbc
              by_cases h3 : y.toNat < x.toNat
              · rw [if_pos h3] at hbc; cases hbc
              · rw [if_neg h3] at hbc
                rw [if_neg (by omega), if_neg (by omega)]
                exact ih xs ys hab hbc

theorem strLt_trans (a b c : String) (hab : strLt a b = true) (hbc : strLt b c = true) :
    strLt a c = true :=
  charListLt_trans a.data b.data c.data hab hbc

theorem charListLt_connex :
    ∀ (a b : List Char), a = b ∨ charListLt a b = true ∨ charListLt b a = true := by
  intro a
  induction a with
  | nil =>
    intro b
    cases b with
    | nil => exact Or.inl rfl
    | cons y ys => exact Or.inr (Or.inl rfl)
  | cons a as ih =>
    intro b
    cases b with
    | nil => exact Or.inr (Or.inr rfl)
    | cons y ys =>
      by_cases h1 : a.toNat < y.toNat
      · exact Or.inr (Or.inl (by rw [charListLt, if_pos h1]))
      · by_cases h2 : y.toNat < a.toNat
        · exact Or.inr (Or.inr (by rw [charListLt, if_pos h2]))
        · have hay : a = y := by
            have h := congrArg Char.ofNat (show a.toNat = y.toNat by omega)
            rwa [Char.ofNat_toNat, Char.ofNat_toNat] at h
          subst hay
          rcases ih ys with he | hlt | hgt
          · exact Or.inl (by rw [he])
          · exact Or.inr (Or.inl (by rw [charListLt, if_neg h1, if_neg h2]; exact hlt))
          · exact Or.inr (Or.inr (by rw [charListLt, if_neg h1, if_neg h2]; exact hgt))

theorem strLt_of_not_gt (a b : String) (h1 : strLt a b = false) (h2 : a ≠ b) :
    strLt b a = true := by
  rcases charListLt_connex a.data b.data with he | hlt | hgt
  · exact absurd (String.ext he) h2
  · rw [strLt] at h1
    rw [hlt] at h1
    cases h1
  · exact hgt

theorem keysChain_cons (k : String) (v : Node) (cs : List (String × Node)) :
    keysChain ((k, v) :: cs)
      ↔ (∀ b ∈ (cs.map Prod.fst).head?, strLt k b = true) ∧ keysChain cs := by
  rw [keysChain, List.map_cons, List.chain'_cons']
  rw [keysChain]

theorem keysChain_tail (e : String × Node) (cs : List (String × Node))
    (h : keysChain (e :: cs)) : keysChain cs := by
  obtain ⟨k, v⟩ := e
  exact ((keysChain_cons k v cs).mp h).2

theorem findChild_none_of_lt_head :
    ∀ (cs : List (String × Node)) (k k' : String) (v' : Node),
      keysChain ((k', v') :: cs) → strLt k k' = true →
      findChild ((k', v') :: cs) k = none := by
  intro cs
  induction cs with
  | nil =>
    intro k k' v' _ hlt
    simp [findChild, Ne.symm (strLt_ne k k' hlt)]
  | cons e cs ih =>
    intro k k' v' hchain hlt
    obtain ⟨k'', v''⟩ := e
    have h1 := (keysChain_cons k' v' ((k'', v'') :: cs)).mp hchain
    have hk'k'' : strLt k' k'' = true := h1.1 k'' (by simp)
    rw [findChild, if_neg (Ne.symm (strLt_ne k k' hlt))]
    exact ih k k'' v'' h1.2 (strLt_trans k k' k'' hlt hk'k'')

theorem insertChild_keysChain :
    ∀ (cs : List (String × Node)) (k : String) (v : Node),
      keysChain cs → keysChain (insertChild cs k v) := by
  intro cs
  induction cs with
  | nil =>
    intro k v _
    rw [insertChild, keysChain]
    simp
  | cons e cs ih =>
    intro k v hchain
    obtain ⟨k', v'⟩ := e
    have h1 := (keysChain_cons k' v' cs).mp hchain
    rw [insertChild]
    by_cases hlt : strLt k k' = true
    · rw [if_pos hlt]
      rw [keysChain_cons]
      exact ⟨by simp [hlt], hchain⟩
    · rw [if_neg hlt]
      by_cases heq : k = k'
      · rw [if_pos heq]
        subst heq
        rw [keysChain_cons]
        exact ⟨h1.1, h1.2⟩
      · rw [if_neg heq]
        have hgt : strLt k' k = true := strLt_of_not_gt k k' (by simpa using hlt) heq
        rw [keysChain_cons]
        refine ⟨?_, ih k v h1.2⟩
        intro b hb
        cases cs with
        | nil =>
          rw [insertChild] at hb
          simp at hb
          subst hb
          exact hgt
        | cons e' cs' =>
          obtain ⟨k'', v''⟩ := e'
          rw [insertChild] at hb
          by_cases hlt2 : strLt k k'' = true
          · rw [if_pos hlt2] at hb
            simp at hb
            subst hb
            exact hgt
          · rw [if_neg hlt2] at hb
            by_cases heq2 : k = k''
            · rw [if_pos heq2] at hb
              simp at hb
              subst hb
              exact hgt
            · rw [if_neg heq2] at hb
              simp at hb
              subst hb
              exact h1.1 k'' (by simp)

theorem childWeightSum_cons (k : String) (v : Node) (cs : List (String × Node)) :
    childWeightSum ((k, v) :: cs) = v.weight + childWeightSum cs := rfl

theorem childWeightSum_insertChild_none :
    ∀ (cs : List (String × Node)) (k : String) (v : Node),
      findChild cs k = none →
      childWeightSum (insertChild cs k v) = childWeightSum cs + v.weight := by
  intro cs
  induction cs with
  | nil => intro k v _; simp [insertChild, childWeightSum]
  | cons e cs ih =>
    intro k v hf
    obtain ⟨k', v'⟩ := e
    rw [findChild] at hf
    by_cases heq : k' = k
    · rw [if_pos heq] at hf; cases hf
    · rw [if_neg heq] at hf
      rw [insertChild]
      by_cases hlt : strLt k k' = true
      · rw [if_pos hlt]
        rw [childWeightSum_cons, childWeightSum_cons]
        omega
      · rw [if_neg hlt, if_neg (Ne.symm heq)]
        rw [childWeightSum_cons, childWeightSum_cons, ih k v hf]
        omega

theorem childWeightSum_insertChild_some :
    ∀ (cs : List (String × Node)) (k : String) (v c : Node),
      keysChain cs → findChild cs k = some c →
      childWeightSum (insertChild cs k v) + c.weight = childWeightSum cs + v.weight := by
  intro cs
  induction cs with
  | nil => intro k v c _ hf; simp [findChild] at hf
  | cons e cs ih =>
    intro k v c hchain hf
    obtain ⟨k', v'⟩ := e
    rw [findChild] at hf
    by_cases heq : k' = k
    · rw [if_pos heq] at hf
      cases hf
      subst heq
      rw [insertChild, if_neg (by rw [strLt_irrefl]; simp), if_pos rfl]
      rw [childWeightSum_cons, childWeightSum_cons]
      omega
    · rw [if_neg heq] at hf
      by_cases hlt : strLt k k' = true
      · have h0 := findChild_none_of_lt_head cs k k' v' hchain hlt
        rw [findChild, if_neg heq, hf] at h0
        cases h0
      · rw [insertChild, if_neg hlt, if_neg (Ne.symm heq)]
        rw [childWeightSum_cons, childWeightSum_cons]
        have := ih k v c (keysChain_tail _ _ hchain) hf
        omega

theorem insertChild_ne_nil (cs : List (String × Node)) (k : String) (v : Node) :
    insertChild cs k v ≠ [] := by
  cases cs with
  | nil => simp [insertChild]
  | cons c cs =>
    obtain ⟨k', v'⟩ := c
    rw [insertChild]
    split
    · simp
    · split <;> simp

theorem weightsSumModChildren_mem (cs : List (String × Node)) (k : String) (c : Node)
    (hf : findChild cs k = some c) (h : weightsSumModChildren cs = true) :
    c.weightsSumMod = true := by
  induction cs with
  | nil => simp [findChild] at hf
  | cons e cs ih =>
    obtain ⟨k', v'⟩ := e
    rw [weightsSumModChildren] at h
    simp only [Bool.and_eq_true] at h
    rw [findChild] at hf
    by_cases he : k' = k
    · rw [if_pos he] at hf
      cases hf
      exact h.1
    · rw [if_neg he] at hf
      exact ih hf h.2

theorem weightsSumModChildren_insertChild (cs : List (String × Node)) (k : String)
    (v : Node) (hv : v.weightsSumMod = true) (h : weightsSumModChildren cs = true) :
    weightsSumModChildren (insertChild cs k v) = true := by
  induction cs with
  | nil => simp [insertChild, weightsSumModChildren, hv]
  | cons e cs ih =>
    obtain ⟨k', v'⟩ := e
    rw [weightsSumModChildren] at h
    simp only [Bool.and_eq_true] at h
    rw [insertChild]
    by_cases h1 : strLt k k' = true
    · rw [if_pos h1]
      rw [weightsSumModChildren, weightsSumModChildren]
      simp [hv, h.1, h.2]
    · rw [if_neg h1]
      by_cases h2 : k = k'
      · rw [if_pos h2]
        rw [weightsSumModChildren]
        simp [hv, h.2]
      · rw [if_neg h2]
        rw [weightsSumModChildren]
        simp [h.1, ih h.2]

theorem weightsSumMod_children_part (w : Nat) (o : Bool) (cs : List (String × Node))
    (h : (Node.mk w o cs).weightsSumMod = true) : weightsSumModChildren cs = true := by
  cases cs with
  | nil => rfl
  | cons c cs =>
    rw [Node.weightsSumMod] at h
    simp only [Bool.and_eq_true] at h
    exact h.2

theorem weightsSumMod_sum_part (w : Nat) (o : Bool) (c : String × Node)
    (cs : List (String × Node)) (h : (Node.mk w o (c :: cs)).weightsSumMod = true) :
    w % U64 = childWeightSum (c :: cs) % U64 := by
  rw [Node.weightsSumMod] at h
  simp only [Bool.and_eq_true, beq_iff_eq] at h
  exact h.1

theorem weightsSumMod_of_parts (w : Nat) (o : Bool) (cs : List (String × Node))
    (hsum : w % U64 = childWeightSum cs % U64) (hcs : weightsSumModChildren cs = true) :
    (Node.mk w o cs).weightsSumMod = true := by
  cases cs with
  | nil => rfl
  | cons c cs =>
    rw [Node.weightsSumMod]
    simp only [Bool.and_eq_true, beq_iff_eq]
    exact ⟨hsum, hcs⟩

theorem default_get_isSome (q : List String) :
    (Node.default.get q).isSome = true ↔ q = [] := by
  cases q with
  | nil => simp [get_nil]
  | cons a q => simp [Node.default, get_cons, children_mk, findChild]

theorem allSorted_mk (w : Nat) (o : Bool) (cs : List (String × Node)) :
    (Node.mk w o cs).allSorted ↔ keysChain cs ∧ childrenAllSorted cs := by
  rw [Node.allSorted]

theorem childrenAllSorted_mem (cs : List (String × Node)) (k : String) (c : Node)
    (hf : findChild cs k = some c) (h : childrenAllSorted cs) : c.allSorted := by
  induction cs with
  | nil => simp [findChild] at hf
  | cons e cs ih =>
    obtain ⟨k', v'⟩ := e
    rw [childrenAllSorted] at h
    rw [findChild] at hf
    by_cases he : k' = k
    · rw [if_pos he] at hf
      cases hf
      exact h.1
    · rw [if_neg he] at hf
      exact ih hf h.2

theorem childrenAllSorted_insertChild (cs : List (String × Node)) (k : String)
    (v : Node) (hv : v.allSorted) (h : childrenAllSorted cs) :
    childrenAllSorted (insertChild cs k v) := by
  induction cs with
  | nil => simp [insertChild, childrenAllSorted, hv]
  | cons e cs ih =>
    obtain ⟨k', v'⟩ := e
    rw [childrenAllSorted] at h
    rw [insertChild]
    by_cases h1 : strLt k k' = true
    · rw [if_pos h1]
      exact ⟨hv, h.1, h.2⟩
    · rw [if_neg h1]
      by_cases h2 : k = k'
      · rw [if_pos h2]
        exact ⟨hv, h.2⟩
      · rw [if_neg h2]
        exact ⟨h.1, ih h.2⟩

theorem default_allSorted : Node.default.allSorted := by
  rw [Node.default, allSorted_mk]
  exact ⟨List.chain'_nil, trivial⟩

theorem allSorted_add_weight :
    ∀ (p : List String) (n : Node) (delta : Int),
      n.allSorted → (n.add_weight p delta).allSorted := by
  intro p
  induction p with
  | nil =>
    intro n delta h
    cases n with
    | mk w o cs =>
      rw [add_weight_mk_nil, allSorted_mk]
      rw [allSorted_mk] at h
      exact h
  | cons a p ih =>
    intro n delta h
    cases n with
    | mk w o cs =>
      rw [add_weight_mk_cons, allSorted_mk]
      rw [allSorted_mk] at h
      have hchild : ((findChild cs a).getD Node.default).allSorted := by
        cases hf : findChild cs a with
        | none => exact default_allSorted
        | some c => exact childrenAllSorted_mem cs a c hf h.2
      exact ⟨insertChild_keysChain cs a _ h.1,
        childrenAllSorted_insertChild cs a _ (ih _ delta hchild) h.2⟩

theorem allSorted_applyCalls (calls : List (List String × Int)) :
    (applyCalls calls).root.allSorted := by
  induction calls using List.reverseRecOn with
  | nil => exact default_allSorted
  | append_singleton calls c ih =>
    rw [applyCalls, List.foldl_append]
    exact allSorted_add_weight c.1 _ c.2 ih

theorem not_internalAt_default (q : List String) : ¬ internalAt Node.default q := by
  intro h
  obtain ⟨v, hv, hne⟩ := h
  cases q with
  | nil =>
    rw [get_nil] at hv
    cases hv
    exact hne rfl
  | cons a q =>
    rw [Node.default, get_cons, children_mk] at hv
    simp [findChild] at hv

theorem get_isSome_add_weight :
    ∀ (q : List String) (n : Node) (p : List String) (delta : Int),
      ((n.add_weight p delta).get q).isSome = true
        ↔ ((n.get q).isSome = true ∨ q <+: p) := by
  intro q
  induction q with
  | nil => intro n p delta; simp [get_nil]
  | cons a q ih =>
    intro n p delta
    cases n with
    | mk w o cs =>
      cases p with
      | nil =>
        rw [add_weight_mk_nil]
        simp only [get_cons, children_mk, List.prefix_nil]
        simp
      | cons b p =>
        rw [add_weight_mk_cons]
        rw [get_cons, get_cons]
        simp only [children_mk]
        by_cases hab : a = b
        · subst hab
          rw [findChild_insertChild_self]
          rw [Option.some_bind]
          rw [ih]
          rw [List.cons_prefix_cons]
          simp only [true_and]
          cases hf : findChild cs a with
          | some c => simp
          | none =>
            simp only [Option.none_bind, Option.isSome_none, Bool.false_eq_true,
              false_or]
            constructor
            · rintro (hd | hp)
              · have hq : q = [] := (default_get_isSome q).mp hd
                subst hq
                exact List.nil_prefix
              · exact hp
            · intro h
              right
              exact h
        · rw [findChild_insertChild_ne cs b a _ hab]
          have : ¬ (a :: q <+: b :: p) := by
            rw [List.cons_prefix_cons]
            intro hx
            exact hab hx.1
          simp [this]

theorem internalAt_add_weight :
    ∀ (q : List String) (n : Node) (p : List String) (delta : Int),
      internalAt (n.add_weight p delta) q
        ↔ (internalAt n q ∨ (q <+: p ∧ q ≠ p)) := by
  intro q
  induction q with
  | nil =>
    intro n p delta
    cases n with
    | mk w o cs =>
      cases p with
      | nil =>
        rw [add_weight_mk_nil]
        constructor
        · rintro ⟨v, hv, hne⟩
          rw [get_nil] at hv
          cases hv
          exact Or.inl ⟨_, get_nil _, hne⟩
        · rintro (⟨v, hv, hne⟩ | ⟨_, hne⟩)
          · rw [get_nil] at hv
            cases hv
            exact ⟨_, get_nil _, hne⟩
          · exact absurd rfl hne
      | cons b p =>
        rw [add_weight_mk_cons]
        constructor
        · intro _
          exact Or.inr ⟨List.nil_prefix, by simp⟩
        · intro _
          refine ⟨_, get_nil _, ?_⟩
          rw [children_mk]
          exact insertChild_ne_nil cs b _
  | cons a q ih =>
    intro n p delta
    cases n with
    | mk w o cs =>
      cases p with
      | nil =>
        rw [add_weight_mk_nil]
        have hpre : ¬ (a :: q <+: ([] : List String) ∧ a :: q ≠ []) := by
          rintro ⟨hx, _⟩
          rw [List.prefix_nil] at hx
          cases hx
        constructor
        · rintro ⟨v, hv, hne⟩
          rw [get_cons, children_mk] at hv
          exact Or.inl ⟨v, by rw [get_cons]; exact hv, hne⟩
        · rintro (⟨v, hv, hne⟩ | hx)
          · rw [get_cons] at hv
            exact ⟨v, by rw [get_cons, children_mk]; exact hv, hne⟩
          · exact absurd hx hpre
      | cons b p =>
        rw [add_weight_mk_cons]
        by_cases hab : a = b
        · subst hab
          have hl : ∀ (m : Node), internalAt m (a :: q)
              ↔ ∃ c, findChild m.children a = some c ∧ internalAt c q := by
            intro m
            constructor
            · rintro ⟨v, hv, hne⟩
              rw [get_cons] at hv
              cases hf : findChild m.children a with
              | none => rw [hf] at hv; cases hv
              | some c =>
                rw [hf, Option.some_bind] at hv
                exact ⟨c, rfl, v, hv, hne⟩
            · rintro ⟨c, hf, v, hv, hne⟩
              exact ⟨v, by rw [get_cons, hf, Option.some_bind]; exact hv, hne⟩
          rw [hl, hl]
          simp only [children_mk, findChild_insertChild_self]
          constructor
          · rintro ⟨c, hc, hint⟩
            cases hc
            rw [ih] at hint
            rcases hint with hint | ⟨hpre, hne⟩
            · cases hf : findChild cs a with
              | none =>
                rw [hf] at hint
                simp only [Option.getD_none] at hint
                exact absurd hint (not_internalAt_default q)
              | some c' =>
                rw [hf] at hint
                simp only [Option.getD_some] at hint
                exact Or.inl ⟨c', rfl, hint⟩
            · refine Or.inr ⟨?_, ?_⟩
              · rw [List.cons_prefix_cons]
                exact ⟨rfl, hpre⟩
              · simp [hne]
          · rintro (⟨c, hc, hint⟩ | ⟨hpre, hne⟩)
            · refine ⟨_, rfl, ?_⟩
              rw [ih]
              left
              rw [hc]
              simpa using hint
            · refine ⟨_, rfl, ?_⟩
              rw [ih]
              right
              rw [List.cons_prefix_cons] at hpre
              refine ⟨hpre.2, ?_⟩
              intro hx
              exact hne (by rw [hx])
        · have hpre : ¬ (a :: q <+: b :: p ∧ a :: q ≠ b :: p) := by
            rintro ⟨hx, _⟩
            rw [List.cons_prefix_cons] at hx
            exact hab hx.1
          constructor
          · rintro ⟨v, hv, hne⟩
            rw [get_cons, children_mk, findChild_insertChild_ne cs b a _ hab] at hv
            exact Or.inl ⟨v, by rw [get_cons]; exact hv, hne⟩
          · rintro (⟨v, hv, hne⟩ | hx)
            · rw [get_cons] at hv
              exact ⟨v, by
                rw [get_cons, children_mk, findChild_insertChild_ne cs b a _ hab]
                exact hv, hne⟩
            · exact absurd hx hpre

theorem applyCalls_append_one (calls : List (List String × Int)) (c : List String × Int) :
    applyCalls (calls ++ [c]) = (applyCalls calls).add_weight c.1 c.2 := by
  rw [applyCalls, applyCalls, List.foldl_append]
  rfl

theorem applyCalls_get_isSome (calls : List (List String × Int)) (q : List String) :
    ((applyCalls calls).root.get q).isSome = true
      ↔ (q = [] ∨ ∃ c ∈ calls, q <+: c.1) := by
  induction calls using List.reverseRecOn with
  | nil =>
    constructor
    · intro h
      exact Or.inl ((default_get_isSome q).mp h)
    · rintro (rfl | ⟨c, hc, _⟩)
      · rw [get_nil]; rfl
      · simp at hc
  | append_singleton calls c ih =>
    rw [applyCalls_append_one]
    rw [show ((applyCalls calls).add_weight c.1 c.2).root
        = (applyCalls calls).root.add_weight c.1 c.2 from rfl]
    rw [get_isSome_add_weight, ih]
    constructor
    · rintro ((rfl | ⟨d, hd, hp⟩) | hp)
      · exact Or.inl rfl
      · exact Or.inr ⟨d, by simp [hd], hp⟩
      · exact Or.inr ⟨c, by simp, hp⟩
    · rintro (rfl | ⟨d, hd, hp⟩)
      · exact Or.inl (Or.inl rfl)
      · rcases List.mem_append.mp hd with hd | hd
        · exact Or.inl (Or.inr ⟨d, hd, hp⟩)
        · have hdc : d = c := by simpa using hd
          subst hdc
          exact Or.inr hp

theorem applyCalls_internalAt (calls : List (List String × Int)) (q : List String) :
    internalAt (applyCalls calls).root q ↔ ∃ c ∈ calls, q <+: c.1 ∧ q ≠ c.1 := by
  induction calls using List.reverseRecOn with
  | nil =>
    constructor
    · intro h
      exact absurd h (not_internalAt_default q)
    · rintro ⟨c, hc, _⟩
      simp at hc
  | append_singleton calls c ih =>
    rw [applyCalls_append_one]
    rw [show ((applyCalls calls).add_weight c.1 c.2).root
        = (applyCalls calls).root.add_weight c.1 c.2 from rfl]
    rw [internalAt_add_weight, ih]
    constructor
    · rintro (⟨d, hd, hp⟩ | hp)
      · exact ⟨d, by simp [hd], hp⟩
      · exact ⟨c, by simp, hp⟩
    · rintro ⟨d, hd, hp⟩
      rcases List.mem_append.mp hd with hd | hd
      · exact Or.inl ⟨d, hd, hp⟩
      · have hdc : d = c := by simpa using hd
        subst hdc
        exact Or.inr hp

theorem U64_eq : U64 = 18446744073709551616 := rfl

theorem wrap_cast (z : Int) : ((wrap z : Nat) : Int) = z % 18446744073709551616 := by
  rw [wrap]
  rw [Int.toNat_of_nonneg]
  · rfl
  · exact Int.emod_nonneg z (by norm_num [U64])

theorem weightsSumMod_sum_of_ne_nil (w : Nat) (o : Bool) (cs : List (String × Node))
    (h : (Node.mk w o cs).weightsSumMod = true) (hne : cs ≠ []) :
    w % U64 = childWeightSum cs % U64 := by
  cases cs with
  | nil => exact absurd rfl hne
  | cons c cs => exact weightsSumMod_sum_part w o c cs h

theorem default_weightsSumMod : Node.default.weightsSumMod = true := rfl

theorem default_get_eq (q : List String) (v : Node) (h : Node.default.get q = some v) :
    q = [] ∧ v = Node.default := by
  cases q with
  | nil =>
    rw [get_nil] at h
    cases h
    exact ⟨rfl, rfl⟩
  | cons a q =>
    rw [Node.default, get_cons, children_mk] at h
    simp [findChild] at h

/-- `add_weight` preserves the modular weight invariant provided the target
node is absent or a leaf, and every strictly shorter stop on the path is
absent, internal, or a zero-weight leaf. -/
theorem weightsSumMod_add_weight :
    ∀ (p : List String) (n : Node) (delta : Int),
      n.allSorted →
      n.weightsSumMod = true →
      (∀ q v, q <+: p → q ≠ p → n.get q = some v →
        v.children ≠ [] ∨ v.weight % U64 = 0) →
      (∀ v, n.get p = some v → v.children = []) →
      (n.add_weight p delta).weightsSumMod = true := by
  intro p
  induction p with
  | nil =>
    intro n delta _ _ _ h3
    cases n with
    | mk w o cs =>
      have hcs : cs = [] := by
        have := h3 (.mk w o cs) (get_nil _)
        rwa [children_mk] at this
      subst hcs
      rw [add_weight_mk_nil]
      rfl
  | cons a rest ih =>
    intro n delta hsort h1 h2 h3
    cases n with
    | mk w o cs =>
      rw [add_weight_mk_cons]
      have hsort' := (allSorted_mk w o cs).mp hsort
      have hchain : keysChain cs := hsort'.1
      have hmodcs : weightsSumModChildren cs = true := weightsSumMod_children_part w o cs h1
      set child := (findChild cs a).getD Node.default with hchild
      have hchild_sorted : child.allSorted := by
        cases hf : findChild cs a with
        | none => rw [hchild, hf]; exact default_allSorted
        | some c => rw [hchild, hf]; exact childrenAllSorted_mem cs a c hf hsort'.2
      have hchild_mod : child.weightsSumMod = true := by
        cases hf : findChild cs a with
        | none => rw [hchild, hf]; rfl
        | some c => rw [hchild, hf]; exact weightsSumModChildren_mem cs a c hf hmodcs
      have hchild_h2 : ∀ q v, q <+: rest → q ≠ rest → child.get q = some v →
          v.children ≠ [] ∨ v.weight % U64 = 0 := by
        intro q v hq hne hv
        cases hf : findChild cs a with
        | none =>
          rw [hchild, hf] at hv
          simp only [Option.getD_none] at hv
          obtain ⟨hq0, hv0⟩ := default_get_eq q v hv
          subst hv0
          exact Or.inr (Nat.zero_mod U64)
        | some c =>
          rw [hchild, hf] at hv
          simp only [Option.getD_some] at hv
          refine h2 (a :: q) v ?_ ?_ ?_
          · rw [List.cons_prefix_cons]; exact ⟨rfl, hq⟩
          · intro hx
            injection hx with _ hx2
            exact hne hx2
          · rw [get_cons, children_mk, hf, Option.some_bind]
            exact hv
      have hchild_h3 : ∀ v, child.get rest = some v → v.children = [] := by
        intro v hv
        cases hf : findChild cs a with
        | none =>
          rw [hchild, hf] at hv
          simp only [Option.getD_none] at hv
          obtain ⟨_, hv0⟩ := default_get_eq rest v hv
          subst hv0
          rfl
        | some c =>
          rw [hchild, hf] at hv
          simp only [Option.getD_some] at hv
          refine h3 v ?_
          rw [get_cons, children_mk, hf, Option.some_bind]
          exact hv
      have hchild' : (child.add_weight rest delta).weightsSumMod = true :=
        ih child delta hchild_sorted hchild_mod hchild_h2 hchild_h3
      refine weightsSumMod_of_parts _ o _ ?_
        (weightsSumModChildren_insertChild cs a _ hchild' hmodcs)
      have hw' : (child.add_weight rest delta).weight = wrap ((child.weight : Int) + delta) :=
        add_weight_weight child rest delta
      have e1 := wrap_cast ((w : Int) + delta)
      have e2 := wrap_cast ((child.weight : Int) + delta)
      cases hf : findChild cs a with
      | some c =>
        have hins := childWeightSum_insertChild_some cs a (child.add_weight rest delta) c
          hchain hf
        have hcs_ne : cs ≠ [] := by
          intro hx
          subst hx
          simp [findChild] at hf
        have hsum : w % U64 = childWeightSum cs % U64 :=
          weightsSumMod_sum_of_ne_nil w o cs h1 hcs_ne
        have hcw : child.weight = c.weight := by rw [hchild, hf]; rfl
        rw [U64_eq] at hsum ⊢
        omega
      | none =>
        have hins := childWeightSum_insertChild_none cs a (child.add_weight rest delta) hf
        have hcw : child.weight = 0 := by rw [hchild, hf]; rfl
        by_cases hcs : cs = []
        · have hw0 : w % U64 = 0 := by
            have := h2 [] (.mk w o cs) List.nil_prefix (by simp) (get_nil _)
            rw [children_mk, hcs] at this
            rcases this with hx | hx
            · exact absurd rfl hx
            · rwa [weight_mk] at hx
          subst hcs
          rw [show childWeightSum ([] : List (String × Node)) = 0 from rfl] at hins
          rw [U64_eq] at hw0 ⊢
          omega
        · have hsum : w % U64 = childWeightSum cs % U64 :=
            weightsSumMod_sum_of_ne_nil w o cs h1 hcs
          rw [U64_eq] at hsum ⊢
          omega

/-- Counterexample for C3: the claim as stated is false.  After
`add_weight("a/b", 1)` followed by `add_weight("a", 1)`, the internal node
`a` has weight 2 while its children sum to 1. -/
theorem c3_weight_invariant_counterexample :
    (applyCalls [(["a", "b"], 1), (["a"], 1)]).root.weightsSumExact = false := by
  decide

/-- C3 (amended): after any sequence of `add_weight` calls starting from
the empty tree in which no call's path is a proper initial segment of
another call's path, every internal node's weight is congruent modulo
`2^64` to the sum of its children's weights, recursively.  (The
proper-initial-segment exclusion is forced by the counterexample — a call
that targets an internal node adds weight to it but not to its children;
the modulus is forced by the wrapping `u64` arithmetic of `add_weight`.) -/
theorem c3_weight_invariant_prefix_free (calls : List (List String × Int))
    (hpf : PrefixFreeCalls calls) :
    (applyCalls calls).root.weightsSumMod = true := by
  induction calls using List.reverseRecOn with
  | nil => rfl
  | append_singleton calls c ih =>
    have hpf' : PrefixFreeCalls calls := by
      intro c1 h1 c2 h2 hp
      exact hpf c1 (by simp [h1]) c2 (by simp [h2]) hp
    rw [applyCalls_append_one]
    refine weightsSumMod_add_weight c.1 (applyCalls calls).root c.2
      (allSorted_applyCalls calls) (ih hpf') ?_ ?_
    · intro q v hq hne hv
      by_cases hch : v.children = []
      · by_cases hex : ∃ d ∈ calls, q <+: d.1
        · obtain ⟨d, hd, hqd⟩ := hex
          by_cases hqe : q = d.1
          · exfalso
            have heq : d.1 = c.1 := hpf d (by simp [hd]) c (by simp)
              (by rw [← hqe]; exact hq)
            exact hne (by rw [hqe, heq])
          · exfalso
            obtain ⟨v', hv', hne'⟩ :=
              (applyCalls_internalAt calls q).mpr ⟨d, hd, hqd, hqe⟩
            rw [hv] at hv'
            cases hv'
            exact hne' hch
        · have hq0 : q = [] := by
            have hsome : ((applyCalls calls).root.get q).isSome = true := by
              rw [hv]; rfl
            rcases (applyCalls_get_isSome calls q).mp hsome with h | h
            · exact h
            · exact absurd h hex
          subst hq0
          have hnil : calls = [] := by
            cases calls with
            | nil => rfl
            | cons d ds => exact absurd ⟨d, by simp, List.nil_prefix⟩ hex
          right
          subst hnil
          rw [get_nil] at hv
          cases hv
          exact Nat.zero_mod U64
      · exact Or.inl hch
    · intro v hv
      by_cases hch : v.children = []
      · exact hch
      · exfalso
        obtain ⟨d, hd, hdp, hdne⟩ :=
          (applyCalls_internalAt calls c.1).mp ⟨v, hv, hch⟩
        exact hdne (hpf c (by simp) d (by simp [hd]) hdp)

/-- Witness for the amended C3: two sibling leaves under the root keep the
modular weight invariant. -/
theorem c3_weight_invariant_prefix_free_witness :
    (applyCalls [(["a"], 1), (["b"], 2)]).root.weightsSumMod = true :=
  c3_weight_invariant_prefix_free _ (by
    intro c1 h1 c2 h2 hp
    simp only [List.mem_cons, List.not_mem_nil, or_false] at h1 h2
    rcases h1 with rfl | rfl
    · rcases h2 with rfl | rfl
      · rfl
      · rw [List.cons_prefix_cons] at hp
        exact absurd hp.1 (by decide)
    · rcases h2 with rfl | rfl
      · rw [List.cons_prefix_cons] at hp
        exact absurd hp.1 (by decide)
      · rfl)

/-! ## Lemmas for out-of-service exclusion (C2) -/

theorem goodName_ne_empty (x : String) (h : goodName x = true) : x ≠ "" := by
  rw [goodName] at h
  simp only [Bool.and_eq_true, decide_eq_true_eq] at h
  exact h.1

theorem goodName_no_slash (x : String) (h : goodName x = true) : '/' ∉ x.data := by
  rw [goodName] at h
  simp only [Bool.and_eq_true, decide_eq_true_eq] at h
  intro hm
  have : x.data.contains '/' = true := by simpa using hm
  rw [this] at h
  rcases h with ⟨_, h2⟩
  cases h2

theorem pathString_cons_cons (x y : String) (r : List String) :
    pathString (x :: y :: r) = x ++ "/" ++ pathString (y :: r) := rfl

theorem pathString_data_cons (x : String) (xs : List String) (hne : xs ≠ []) :
    (pathString (x :: xs)).data = x.data ++ '/' :: (pathString xs).data := by
  cases xs with
  | nil => exact absurd rfl hne
  | cons y r =>
    rw [pathString_cons_cons, String.data_append, String.data_append]
    rw [show ("/" : String).data = ['/'] from rfl]
    simp

theorem pathString_ne_empty (l : List String) (hl : ∀ x ∈ l, goodName x = true)
    (hne : l ≠ []) : pathString l ≠ "" := by
  cases l with
  | nil => exact absurd rfl hne
  | cons x xs =>
    intro he
    cases xs with
    | nil =>
      exact goodName_ne_empty x (hl x (by simp)) he
    | cons y r =>
      have := congrArg String.data he
      rw [pathString_data_cons x (y :: r) (by simp)] at this
      simp at this

theorem pathString_append_one (l : List String) (x : String) :
    pathString (l ++ [x])
      = if l = [] then x else pathString l ++ "/" ++ x := by
  induction l with
  | nil => rfl
  | cons y ys ih =>
    rw [if_neg (by simp)]
    cases ys with
    | nil => rfl
    | cons z r =>
      rw [List.cons_append, List.cons_append, pathString_cons_cons]
      rw [List.cons_append] at ih
      rw [ih, if_neg (by simp)]
      rw [pathString_cons_cons]
      simp [String.append_assoc]

theorem sep_split :
    ∀ (xs xs' ys ys' : List Char), '/' ∉ xs → '/' ∉ xs' →
      xs ++ '/' :: ys = xs' ++ '/' :: ys' → xs = xs' ∧ ys = ys' := by
  intro xs
  induction xs with
  | nil =>
    intro xs' ys ys' _ hx' h
    cases xs' with
    | nil =>
      simp only [List.nil_append] at h
      injection h with _ h2
      exact ⟨rfl, h2⟩
    | cons c cs =>
      simp only [List.nil_append, List.cons_append] at h
      injection h with h1 _
      exact absurd (by rw [← h1]; simp) hx'
  | cons c cs ih =>
    intro xs' ys ys' hx hx' h
    cases xs' with
    | nil =>
      simp only [List.cons_append, List.nil_append] at h
      injection h with h1 _
      exact absurd (by rw [h1]; simp) hx
    | cons c' cs' =>
      simp only [List.cons_append] at h
      injection h with h1 h2
      subst h1
      have hx2 : '/' ∉ cs := fun hm => hx (by simp [hm])
      have hx2' : '/' ∉ cs' := fun hm => hx' (by simp [hm])
      obtain ⟨e1, e2⟩ := ih cs' ys ys' hx2 hx2' h2
      exact ⟨by rw [e1], e2⟩

theorem pathString_inj :
    ∀ (l1 l2 : List String), (∀ x ∈ l1, goodName x = true) →
      (∀ x ∈ l2, goodName x = true) → pathString l1 = pathString l2 → l1 = l2 := by
  intro l1
  induction l1 with
  | nil =>
    intro l2 _ h2 he
    cases l2 with
    | nil => rfl
    | cons y ys =>
      exact absurd (Eq.symm he) (pathString_ne_empty (y :: ys) h2 (by simp))
  | cons x xs ih =>
    intro l2 h1 h2 he
    cases l2 with
    | nil =>
      exact absurd he (pathString_ne_empty (x :: xs) h1 (by simp))
    | cons y ys =>
      have hgx : goodName x = true := h1 x (by simp)
      have hgy : goodName y = true := h2 y (by simp)
      cases xs with
      | nil =>
        cases ys with
        | nil =>
          rw [show pathString [x] = x from rfl, show pathString [y] = y from rfl] at he
          rw [he]
        | cons z r =>
          exfalso
          have hd := congrArg String.data he
          rw [show pathString [x] = x from rfl,
            pathString_data_cons y (z :: r) (by simp)] at hd
          exact goodName_no_slash x hgx (by rw [hd]; simp)
      | cons x2 r1 =>
        cases ys with
        | nil =>
          exfalso
          have hd := congrArg String.data he
          rw [show pathString [y] = y from rfl,
            pathString_data_cons x (x2 :: r1) (by simp)] at hd
          exact goodName_no_slash y hgy (by rw [← hd]; simp)
        | cons y2 r2 =>
          have hd := congrArg String.data he
          rw [pathString_data_cons x (x2 :: r1) (by simp),
            pathString_data_cons y (y2 :: r2) (by simp)] at hd
          obtain ⟨e1, e2⟩ := sep_split x.data y.data _ _
            (goodName_no_slash x hgx) (goodName_no_slash y hgy) hd
          have hxy : x = y := String.ext e1
          have htl : pathString (x2 :: r1) = pathString (y2 :: r2) := String.ext e2
          have := ih (y2 :: r2) (fun z hz => h1 z (by simp [hz]))
            (fun z hz => h2 z (by simp [hz])) htl
          rw [hxy, this]

theorem wfNames_children (n : Node) (h : n.wfNames = true) :
    wfNamesChildren n.children = true := by
  cases n with
  | mk w o cs => exact h

theorem wfNamesChildren_find (cs : List (String × Node)) (k : String) (c : Node)
    (hf : findChild cs k = some c) (h : wfNamesChildren cs = true) :
    goodName k = true ∧ c.wfNames = true := by
  induction cs with
  | nil => simp [findChild] at hf
  | cons e cs ih =>
    obtain ⟨k', v'⟩ := e
    rw [wfNamesChildren] at h
    simp only [Bool.and_eq_true] at h
    rw [findChild] at hf
    by_cases he : k' = k
    · rw [if_pos he] at hf
      cases hf
      subst he
      exact ⟨h.1.1, h.1.2⟩
    · rw [if_neg he] at hf
      exact ih hf h.2

theorem get_components_good :
    ∀ (l : List String) (n v : Node), n.wfNames = true → n.get l = some v →
      (∀ x ∈ l, goodName x = true) ∧ v.wfNames = true := by
  intro l
  induction l with
  | nil =>
    intro n v hn hv
    rw [get_nil] at hv
    cases hv
    exact ⟨by simp, hn⟩
  | cons a l ih =>
    intro n v hn hv
    rw [get_cons] at hv
    cases hf : findChild n.children a with
    | none => rw [hf] at hv; cases hv
    | some c =>
      rw [hf, Option.some_bind] at hv
      have hk := wfNamesChildren_find n.children a c hf (wfNames_children n hn)
      obtain ⟨hgl, hvwf⟩ := ih c v hk.2 hv
      refine ⟨?_, hvwf⟩
      intro x hx
      rcases List.mem_cons.mp hx with rfl | hx
      · exact hk.1
      · exact hgl x hx

theorem get_snoc_none (root : Node) (l : List String) (name : String)
    (h : ∀ v, root.get l = some v → v.children = []) :
    root.get (l ++ [name]) = none := by
  rw [get_append]
  cases hg : root.get l with
  | none => rfl
  | some v =>
    rw [Option.some_bind, get_cons, h v hg]
    rfl

theorem get_snoc_some (root node : Node) (l : List String) (name : String)
    (hg : root.get l = some node) :
    root.get (l ++ [name]) = findChild node.children name := by
  rw [get_append, hg, Option.some_bind, get_cons]
  cases hf : findChild node.children name with
  | none => rfl
  | some c => rw [Option.some_bind, get_nil]

/-- Main invariant of the inner selection loop: an accepted path string is
the rendering of a component list all of whose components are well-formed
names, and that list either fails to resolve or resolves to an in-service
leaf.  (After a rejection the accumulated string keeps the rejected leaf's
name, so accepted strings need not resolve at all — but they can never
resolve to an out-of-service leaf.) -/
theorem selLoop_found_good (L : Nat → Nat) (hash : String → Nat → Nat → Nat)
    (root : Node) (pgid r : Nat) (targets : List String) (hwf : root.wfNames = true) :
    ∀ (fuel : Nat) (node : Node) (lf : Nat) (fullname : String) (fc : Nat)
      (f : String) (fc' : Nat),
      node.wfNames = true →
      (∃ l, fullname = pathString l ∧ (∀ x ∈ l, goodName x = true) ∧
        (root.get l = some node ∨ (∀ v, root.get l = some v → v.children = []))) →
      selLoop L hash root pgid r targets fuel node lf fullname fc = .found f fc' →
      ∃ l, f = pathString l ∧ (∀ x ∈ l, goodName x = true) ∧
        (∀ v, root.get l = some v → v.children = [] ∧ v.out = false) := by
  intro fuel
  induction fuel with
  | zero => intro node lf fullname fc f fc' _ _ h; simp [selLoop] at h
  | succ fuel ih =>
    intro node lf fullname fc f fc' hnwf hinv h
    obtain ⟨l, hfn, hgood, hres⟩ := hinv
    rw [selLoop] at h
    cases hc : node.choose L hash pgid (r + fc) with
    | none => rw [hc] at h; simp at h
    | some name =>
      rw [hc] at h
      simp only at h
      cases hf : findChild node.children name with
      | none => rw [hf] at h; simp at h
      | some child =>
        rw [hf] at h
        simp only at h
        have hkey := wfNamesChildren_find node.children name child hf
          (wfNames_children node hnwf)
        have hgname : goodName name = true := hkey.1
        have hcwf : child.wfNames = true := hkey.2
        have hfn' : (if fullname.isEmpty then name else fullname ++ "/" ++ name)
            = pathString (l ++ [name]) := by
          rw [pathString_append_one]
          by_cases hl : l = []
          · subst hl
            rw [hfn,
              if_pos (show (pathString ([] : List String)).isEmpty = true from rfl),
              if_pos rfl]
          · rw [if_neg hl, hfn, if_neg ?_]
            intro hemp
            exact pathString_ne_empty l hgood hl ((String.isEmpty_iff _).mp hemp)
        rw [hfn'] at h
        have hgood' : ∀ x ∈ l ++ [name], goodName x = true := by
          intro x hx
          rcases List.mem_append.mp hx with hx | hx
          · exact hgood x hx
          · rw [List.mem_singleton.mp hx]
            exact hgname
        have hres' : root.get (l ++ [name]) = some child
            ∨ root.get (l ++ [name]) = none := by
          rcases hres with hres | hres
          · left
            rw [get_snoc_some root node l name hres, hf]
          · right
            exact get_snoc_none root l name hres
        have hresinv : root.get (l ++ [name]) = some child
            ∨ (∀ v, root.get (l ++ [name]) = some v → v.children = []) := by
          rcases hres' with hx | hx
          · exact Or.inl hx
          · right
            intro v hv
            rw [hx] at hv
            cases hv
        by_cases hdc : child.children.isEmpty = false
        · rw [if_pos hdc] at h
          exact ih child lf _ fc f fc' hcwf ⟨l ++ [name], rfl, hgood', hresinv⟩ h
        · rw [if_neg hdc] at h
          have hleaf : child.children = [] := by
            cases hemp : child.children with
            | nil => rfl
            | cons e es =>
              rw [hemp] at hdc
              simp at hdc
          by_cases hacc : child.out = false
              ∧ targets.contains (pathString (l ++ [name])) = false
          · rw [if_pos hacc] at h
            injection h with h1 h2
            subst h1
            refine ⟨l ++ [name], rfl, hgood', ?_⟩
            intro v hv
            rcases hres' with hx | hx
            · rw [hx] at hv
              cases hv
              exact ⟨hleaf, hacc.1⟩
            · rw [hx] at hv
              cases hv
          · rw [if_neg hacc] at h
            have hstay : ∀ v, root.get (l ++ [name]) = some v → v.children = [] := by
              intro v hv
              rcases hres' with hx | hx
              · rw [hx] at hv
                cases hv
                exact hleaf
              · rw [hx] at hv
                cases hv
            by_cases hloc : lf + 1 > 3
            · rw [if_pos hloc] at h
              exact ih root 0 "" (fc + 1) f fc' hwf
                ⟨[], rfl, by simp, Or.inl (get_nil root)⟩ h
            · rw [if_neg hloc] at h
              exact ih node (lf + 1) _ (fc + 1) f fc' hnwf
                ⟨l ++ [name], rfl, hgood', Or.inr hstay⟩ h

/-- The replica loop preserves "no accepted string is the path of an
out-of-service leaf". -/
theorem selectGo_ok_no_out_leaf (L : Nat → Nat) (hash : String → Nat → Nat → Nat)
    (root : Node) (pgid fuel : Nat) (hwf : root.wfNames = true) :
    ∀ (rem r : Nat) (targets : List String) (fc : Nat) (ts : List String),
      (∀ s ∈ targets, ∀ (l : List String) (v : Node),
        root.get l = some v → v.children = [] → v.out = true → pathString l ≠ s) →
      selectGo L hash root pgid fuel rem r targets fc = .ok ts →
      ∀ s ∈ ts, ∀ (l : List String) (v : Node),
        root.get l = some v → v.children = [] → v.out = true → pathString l ≠ s := by
  intro rem
  induction rem with
  | zero =>
    intro r targets fc ts ht h
    rw [selectGo] at h
    cases h
    exact ht
  | succ rem ih =>
    intro r targets fc ts ht h
    rw [selectGo] at h
    cases hl : selLoop L hash root pgid r targets fuel root 0 "" fc with
    | panicked => rw [hl] at h; simp at h
    | fuelOut => rw [hl] at h; simp at h
    | found f fc2 =>
      rw [hl] at h
      simp only at h
      have hfprop : ∀ (l : List String) (v : Node),
          root.get l = some v → v.children = [] → v.out = true → pathString l ≠ f := by
        obtain ⟨lf2, hf2, hgood2, hres2⟩ :=
          selLoop_found_good L hash root pgid r targets hwf fuel root 0 "" fc f fc2
            hwf ⟨[], rfl, by simp, Or.inl (get_nil root)⟩ hl
        intro l v hv hleaf hout heq
        have hgoodl : ∀ x ∈ l, goodName x = true :=
          (get_components_good l root v hwf hv).1
        have hll : l = lf2 := pathString_inj l lf2 hgoodl hgood2 (by rw [heq, hf2])
        subst hll
        have hvout := (hres2 v hv).2
        rw [hout] at hvout
        cases hvout
      refine ih (r + 1) (targets ++ [f]) fc2 ts ?_ h
      intro s hs
      rcases List.mem_append.mp hs with hs | hs
      · exact ht s hs
      · rw [List.mem_singleton.mp hs]
        exact hfprop

/-- C2: while the map has at least one eligible in-service leaf, no
out-of-service leaf ever appears in a `select` result: any returned path
string, read back as a path in the tree, is never an `out = true` leaf
(tree states are assumed to use well-formed child names — nonempty,
`/`-free — as all maps built through the path API with well-formed
components do). -/
theorem c2_out_leaf_never_selected (L : Nat → Nat) (hash : String → Nat → Nat → Nat)
    (c : Crush) (pgid num fuel : Nat) (ts : List String)
    (hwf : c.root.wfNames = true)
    (helig : 0 < c.root.eligibleLeafCount)
    (hok : Crush.select L hash c pgid num fuel = .ok ts) :
    ∀ s ∈ ts, ∀ (l : List String) (v : Node),
      c.root.get l = some v → v.children = [] → v.out = true → pathString l ≠ s :=
  selectGo_ok_no_out_leaf L hash c.root pgid fuel hwf num 0 [] 0 ts (by simp) hok

/-- Witness for C2: on the map with in-service leaf `a` and out leaf `b`,
a concrete selection returns `["a"]`, and the out leaf's path `"b"` is not
that result. -/
theorem c2_out_leaf_never_selected_witness :
    0 < crushABout.root.eligibleLeafCount ∧ pathString ["b"] ≠ "a" :=
  ⟨by decide,
    c2_out_leaf_never_selected tableConst hashLen crushABout 0 1 10 ["a"]
      (by decide) (by decide) (by decide) "a" (by simp) ["b"] (.mk 1 true [])
      rfl rfl rfl⟩
